import Mathlib

/-!
Shallow embedding of the Sparse Distributed Memory (SDM) kernel of the
CALM repository (src/hardware/esp32-s3/sensor-node/src/sdm/), together
with theorems settling the specification claims about it.

Machine integers are modelled as `Nat`/`Int` with explicit `% 2^w`
where the source's unsigned counters can wrap; `float` quantities
(weights, confidences, sparsity, encoder values) are modelled as `Rat`,
following the real-number semantics the specification assigns them.
-/

namespace SDM

/-- Configuration of one store: `struct SDMConfig` in `sdm.h`.  The
`uint16_t` fields are modelled as `Nat` (the source's types keep them
below `2^16`); `sparsity` (a `float`) is modelled as a rational. -/
structure SDMConfig where
  vector_dim : Nat
  num_locations : Nat
  access_radius : Nat
  sparsity : Rat
deriving Repr, DecidableEq

/-- Statistics record: `struct SDMStats` in `sdm.h`.  `total_writes` and
`total_reads` are `uint32_t` counters; the confidences and the average
match ratio are `float`, modelled as rationals. -/
structure SDMStats where
  total_writes : Nat
  total_reads : Nat
  last_confidence : Rat
  last_activated_locations : Nat
  avg_match_ratio : Rat
deriving Repr, DecidableEq

/-- In-memory state of a `SparseDistributedMemory` object (sdm.h):
the configuration, the hard-location address table `addresses`, the
signed counter matrix `memory` (`int16_t` entries, modelled as `Int`
with explicit clamping), the per-location access counters
(`uint16_t`), and the statistics. -/
structure SDMState where
  config : SDMConfig
  addresses : List (List Bool)
  memory : List (List Int)
  access_counts : List Nat
  stats : SDMStats
deriving Repr, DecidableEq

/-- `SparseDistributedMemory::hammingDistance` (sdm.cpp:72):
counts the positions where the two vectors differ, walking both
vectors up to the shorter length. -/
def hammingDistance (v1 v2 : List Bool) : Nat :=
  ((v1.zip v2).filter (fun p => p.1 != p.2)).length

/-- Activation test of one hard location (sdm.cpp:91, sdm.cpp:126): a
location with address `addr` is activated by `x` iff its Hamming
distance from `x` is at most `access_radius`. -/
def activates (cfg : SDMConfig) (x addr : List Bool) : Bool :=
  decide (hammingDistance x addr ≤ cfg.access_radius)

/-- Indices `i < num_locations` whose hard location is activated by `x`
(the working set `A(x)` scanned by the loops at sdm.cpp:88 and
sdm.cpp:124). -/
def activatedIndices (s : SDMState) (x : List Bool) : List Nat :=
  (List.range s.config.num_locations).filter
    (fun i => activates s.config x (s.addresses.getD i []))

def INT16_MAX : Int := 32767

def INT16_MIN : Int := -32768

/-- Clamp an integer into the representable `int16_t` range. -/
def clamp16 (x : Int) : Int := max INT16_MIN (min x INT16_MAX)

/-- Counter update of one activated location (sdm.cpp:96): for each bit
position `j`, add `strength` if the input bit is 1 (clamping above at
`INT16_MAX`), else subtract `strength` (clamping below at `INT16_MIN`).
The `int32_t` intermediate never overflows, so plain `Int` arithmetic
is exact. -/
def updateRow (v : List Bool) (strength : Nat) (row : List Int) : List Int :=
  List.zipWith
    (fun b m =>
      if b then min (m + (strength : Int)) INT16_MAX
      else max (m - (strength : Int)) INT16_MIN)
    v row

/-- `SparseDistributedMemory::write` (sdm.cpp:80).  A length mismatch
returns 0 touching nothing.  Otherwise every activated location gets
its access counter bumped (`uint16_t`, hence `% 2^16`) and its counter
row reinforced; `total_writes` (`uint32_t`) wraps at `2^32`; the
activated-location count is returned and recorded.  The in-place loop
over `i < num_locations` is rendered by rebuilding the rows indexed by
`List.range num_locations`, which agrees with the source on states
whose matrices have their configured lengths. -/
def write (s : SDMState) (v : List Bool) (strength : Nat) : SDMState × Nat :=
  if v.length = s.config.vector_dim then
    let n := (activatedIndices s v).length
    ({ s with
        memory := (List.range s.config.num_locations).map (fun i =>
          if activates s.config v (s.addresses.getD i []) then
            updateRow v strength (s.memory.getD i [])
          else s.memory.getD i []),
        access_counts := (List.range s.config.num_locations).map (fun i =>
          if activates s.config v (s.addresses.getD i []) then
            (s.access_counts.getD i 0 + 1) % 65536
          else s.access_counts.getD i 0),
        stats := { s.stats with
          total_writes := (s.stats.total_writes + 1) % 4294967296,
          last_activated_locations := n } }, n)
  else (s, 0)

/-- `SparseDistributedMemory::read` (sdm.cpp:114).  A length mismatch
returns the zero vector with confidence 0, touching nothing; so does an
empty working set (note the early return at sdm.cpp:133 also skips the
statistics update).  Otherwise one pass over the activated locations
accumulates the total weight and the weighted per-bit sums
(sdm.cpp:140), and a second pass thresholds the normalised sums and
takes the maximal absolute value as confidence (sdm.cpp:154). -/
def read (s : SDMState) (q : List Bool) : SDMState × (List Bool × Rat) :=
  if q.length = s.config.vector_dim then
    let A := activatedIndices s q
    if A.isEmpty then
      (s, (List.replicate s.config.vector_dim false, 0))
    else
      let w : Nat → Rat := fun i =>
        1 / (1 + (hammingDistance q (s.addresses.getD i []) : Rat))
      let acc := A.foldl
        (fun p i =>
          (p.1 + w i,
           List.zipWith (fun t (m : Int) => t + w i * (m : Rat)) p.2 (s.memory.getD i [])))
        ((0 : Rat), List.replicate s.config.vector_dim (0 : Rat))
      let output := acc.2.map (fun t => decide (t / acc.1 > 0))
      let conf := acc.2.foldl (fun mc t => max mc |t / acc.1|) 0
      ({ s with stats := { s.stats with
            total_reads := (s.stats.total_reads + 1) % 4294967296,
            last_confidence := conf } },
        (output, conf))
  else (s, (List.replicate s.config.vector_dim false, 0))

/-- Well-formedness of a store state: the matrices have their configured
shape (`N` rows of width `D`, `N` access counters) and every counter
value is representable in `int16_t`.  These hold for every store the
source can build, where the rows are allocated with these lengths and
the counters only ever move by the clamped updates. -/
@[reducible]
def WF (s : SDMState) : Prop :=
  s.addresses.length = s.config.num_locations ∧
  s.memory.length = s.config.num_locations ∧
  s.access_counts.length = s.config.num_locations ∧
  (∀ a ∈ s.addresses, a.length = s.config.vector_dim) ∧
  (∀ r ∈ s.memory, r.length = s.config.vector_dim) ∧
  (∀ r ∈ s.memory, ∀ m ∈ r, INT16_MIN ≤ m ∧ m ≤ INT16_MAX)

/-- `SparseDistributedMemory::generateSparseVector` (sdm.cpp:55): zero
the vector, compute `num_ones = ⌊vector_dim * sparsity⌋` (the `float`
product truncated by the `uint16_t` cast), shuffle the index list
`0, …, vector_dim-1`, and set the positions named by the first
`num_ones` shuffled indices.  The RNG shuffle is made explicit: `perm`
is the shuffled index list. -/
def generateSparseVector (D : Nat) (sparsity : Rat) (perm : List Nat) : List Bool :=
  let num_ones := Nat.floor ((D : Rat) * sparsity)
  (List.range D).map (fun j => decide (j ∈ perm.take num_ones))

def initStats : SDMStats :=
  { total_writes := 0, total_reads := 0, last_confidence := 0,
    last_activated_locations := 0, avg_match_ratio := 0 }

/-- The fresh-start path of `SparseDistributedMemory::initialize`
(sdm.cpp:18) — no config file and no memory file on the SD card: the
matrices are sized `num_locations × vector_dim`, the counters and
access counts zeroed, and each hard location drawn by
`generateSparseVector` from its own shuffled index list (`perms.getD i`
is location `i`'s shuffle). -/
def initializeFresh (cfg : SDMConfig) (perms : List (List Nat)) : SDMState :=
  { config := cfg,
    addresses := (List.range cfg.num_locations).map
      (fun i => generateSparseVector cfg.vector_dim cfg.sparsity (perms.getD i [])),
    memory := List.replicate cfg.num_locations (List.replicate cfg.vector_dim 0),
    access_counts := List.replicate cfg.num_locations 0,
    stats := initStats }

/-- Little-endian 16-bit value assembled from the first two bytes of
`got` over a destination currently holding `old < 2^16`: `File::read`
writes the bytes it obtained in order, so a short read keeps the
destination's remaining bytes. -/
def u16FromBytes (got : List Nat) (old : Nat) : Nat :=
  (got.getD 0 (old % 256)) % 256 + 256 * ((got.getD 1 (old / 256 % 256)) % 256)

/-- The `uint16_t` byte image of an `int16_t` value (two's complement). -/
def u16OfInt (m : Int) : Nat := (m % 65536).toNat

/-- Reinterpret a 16-bit unsigned value as `int16_t` (two's complement). -/
def i16OfU16 (v : Nat) : Int :=
  if v % 65536 < 32768 then ((v % 65536 : Nat) : Int)
  else ((v % 65536 : Nat) : Int) - 65536

/-- The access-counter reading loop of `loadMemoryFromSD` (sdm.cpp:274):
each counter is overwritten by a 2-byte little-endian read; the source
ignores `File::read`'s return value, so bytes past the end of the file
leave the corresponding destination bytes as they were.  Returns the
new counters and the unconsumed byte stream. -/
def loadCounts : List Nat → List Nat → List Nat × List Nat
  | [], bs => ([], bs)
  | c :: cs, bs =>
    let c' := u16FromBytes (bs.take 2) (c % 65536)
    let r := loadCounts cs (bs.drop 2)
    (c' :: r.1, r.2)

/-- The inner counter-reading loop of `loadMemoryFromSD` (sdm.cpp:280)
over one row of the counter matrix; same ignored-return semantics as
`loadCounts`. -/
def loadRow : List Int → List Nat → List Int × List Nat
  | [], bs => ([], bs)
  | m :: ms, bs =>
    let m' := i16OfU16 (u16FromBytes (bs.take 2) (u16OfInt m))
    let r := loadRow ms (bs.drop 2)
    (m' :: r.1, r.2)

/-- The outer counter-reading loop of `loadMemoryFromSD` (sdm.cpp:279)
over the rows of the counter matrix. -/
def loadRows : List (List Int) → List Nat → List (List Int) × List Nat
  | [], bs => ([], bs)
  | r :: rs, bs =>
    let r' := loadRow r bs
    let rest := loadRows rs r'.2
    (r'.1 :: rest.1, rest.2)

/-- `SparseDistributedMemory::loadMemoryFromSD` (sdm.cpp:252) over an
explicit file model: `file = none` is `SD.exists` false or a failed
open.  The header is read into two uninitialized stack locals whose
indeterminate initial contents are `junk1`, `junk2` (irrelevant as soon
as the file holds 4 header bytes); a mismatch against the configured
`(num_locations, vector_dim)` aborts before any mutation.  Otherwise
the access counters and then the row-major counter matrix are
overwritten from the remaining bytes; the source never checks how many
bytes `File::read` delivered, and returns `true` regardless. -/
def loadMemoryFromSD (s : SDMState) (file : Option (List Nat)) (junk1 junk2 : Nat) :
    SDMState × Bool :=
  match file with
  | none => (s, false)
  | some bs =>
    let stored_locations := u16FromBytes (bs.take 2) (junk1 % 65536)
    let bs1 := bs.drop 2
    let stored_dim := u16FromBytes (bs1.take 2) (junk2 % 65536)
    let bs2 := bs1.drop 2
    if stored_locations ≠ s.config.num_locations ∨ stored_dim ≠ s.config.vector_dim then
      (s, false)
    else
      let rc := loadCounts s.access_counts bs2
      let rm := loadRows s.memory rc.2
      ({ s with access_counts := rc.1, memory := rm.1 }, true)

/-- Arduino's `constrain(amt, low, high)` macro. -/
def constrain (x lo hi : Rat) : Rat := if x < lo then lo else if x > hi then hi else x

/-- `SDMEncoder::encodeFloat` (sdm_encoder.cpp:44): normalise the value
to `[0,1]` over `[min_val, max_val]`, clamp, truncate
`normalized * (vector_dim - 1)` to a bit position, and set bits `0`
through that position (thermometer code).  `D` is the attached store's
`vector_dim` (the source assumes `D ≥ 1`; the `uint16_t` wrap of
`D - 1` at `D = 0` is outside the modelled domain). -/
def encodeFloat (D : Nat) (value min_val max_val : Rat) : List Bool :=
  let normalized := constrain ((value - min_val) / (max_val - min_val)) 0 1
  let position := Nat.floor (normalized * ((D - 1 : Nat) : Rat))
  (List.range D).map (fun i => decide (i ≤ position))

/-- The scanning loop of `SDMEncoder::decodeFloat` (sdm_encoder.cpp:64):
`i` is the running index, `acc` the last set index seen (0 if none). -/
def highestSetBitAux : Nat → Nat → List Bool → Nat
  | _, acc, [] => acc
  | i, acc, b :: rest => highestSetBitAux (i + 1) (if b then i else acc) rest

/-- Index of the highest set bit of a vector, 0 for the zero vector
(sdm_encoder.cpp:64). -/
def highestSetBit (v : List Bool) : Nat := highestSetBitAux 0 0 v

/-- `SDMEncoder::decodeFloat` (sdm_encoder.cpp:62): map the highest set
bit back through the thermometer scale. -/
def decodeFloat (D : Nat) (v : List Bool) (min_val max_val : Rat) : Rat :=
  let normalized : Rat := (highestSetBit v : Rat) / ((D - 1 : Nat) : Rat)
  min_val + normalized * (max_val - min_val)

/-- `SDMEncoder::sequence_length` (sdm.h:88). -/
def sequence_length : Nat := 32

/-- `bits_per_element` of the sequence codec (sdm_encoder.cpp:84,
sdm_encoder.cpp:106): the integer quotient `vector_dim / 32`. -/
def bitsPerElement (D : Nat) : Nat := D / sequence_length

/-- `SDMEncoder::encodeSequence` (sdm_encoder.cpp:78): an empty
sequence returns the zero vector; otherwise element `i` (of the first
`sequence_length` elements) normalises from `[-1,1]` to `[0,1]` and
sets the first `⌊normalized * bits_per_element⌋` bits of its segment,
stopping at `vector_dim`. -/
def encodeSequence (D : Nat) (seq : List Rat) : List Bool :=
  if seq.isEmpty then List.replicate D false
  else
    let bpe := bitsPerElement D
    (seq.take sequence_length).enum.foldl
      (fun enc p =>
        let normalized := constrain ((p.2 + 1) / 2) 0 1
        let num_bits := Nat.floor (normalized * (bpe : Rat))
        (List.range num_bits).foldl
          (fun e j => if p.1 * bpe + j < D then e.set (p.1 * bpe + j) true else e) enc)
      (List.replicate D false)

/-- `SDMEncoder::decodeSequence` (sdm_encoder.cpp:103): for each of the
`sequence_length` segments, count the set bits among the segment's
`bits_per_element` positions that fall inside the vector, divide by
`bits_per_element` and rescale to `[-1,1]`. -/
def decodeSequence (D : Nat) (v : List Bool) : List Rat :=
  let bpe := bitsPerElement D
  (List.range sequence_length).map (fun i =>
    let active := ((List.range bpe).filter (fun j => v.getD (i * bpe + j) false)).length
    ((active : Rat) / (bpe : Rat)) * 2 - 1)

/-- The conservative default configuration of
`SDMBenchmark::findOptimalConfig` (sdm_benchmark.cpp:306): `D = 16`,
`N = 50`, `R = 3`, `s = 0.03`. -/
def esp32SafeDefault : SDMConfig :=
  { vector_dim := 16, num_locations := 50, access_radius := 3, sparsity := 3 / 100 }

/-- Observable states of the persisted optimal-config file as
`findOptimalConfig` distinguishes them: absent (`SD.exists` false),
present but unopenable, present but rejected by the JSON parser, or
parsed with the four stored fields. -/
inductive OptConfigFile where
  | absent
  | openFailed
  | unparseable
  | parsed (vector_dim num_locations access_radius : Nat) (sparsity : Rat)
deriving Repr, DecidableEq

/-- `SDMBenchmark::findOptimalConfig` (sdm_benchmark.cpp:281): a parsed
file yields the persisted configuration unchanged and writes nothing;
every other case falls through to the safe default, which
`saveOptimalConfig` writes back.  The second component is what is
written to the optimal-config file. -/
def findOptimalConfig : OptConfigFile → SDMConfig × Option SDMConfig
  | .parsed vd nl ar sp =>
      ({ vector_dim := vd, num_locations := nl, access_radius := ar, sparsity := sp }, none)
  | _ => (esp32SafeDefault, some esp32SafeDefault)

/-- Ten repeated writes of the same vector at the default strength 1
(sdm_benchmark.cpp:115). -/
def iterWrite : Nat → SDMState → List Bool → SDMState
  | 0, st, _ => st
  | n + 1, st, v => iterWrite n (write st v 1).1 v

/-- The random draws `testConfiguration` consumes, made explicit: one
shuffled index list per hard location for `initialize`, and one per
trial for the random sparse test vector (the partial Fisher–Yates at
sdm_benchmark.cpp:102 realises a shuffled index list whose first
`num_ones` entries name the set positions). -/
structure TestRandomness where
  addrPerms : List (List Nat)
  testPerms : List (List Nat)
deriving Repr

/-- The bit-agreement count of `testConfiguration`
(sdm_benchmark.cpp:122): positions `i < D` where input and output
agree. -/
def matchCount (D : Nat) (v out : List Bool) : Nat :=
  ((List.range D).filter (fun i => v.getD i false == out.getD i false)).length

/-- `SDMBenchmark::testConfiguration` (sdm_benchmark.cpp:88) on the
fresh-store path (no persisted SD state): one store serves all
`num_tests` trials; each trial draws a sparse test vector, writes it
ten times at strength 1, reads it back and scores the bit agreement;
the result is the mean match ratio. -/
def testConfiguration (cfg : SDMConfig) (num_tests : Nat) (rnd : TestRandomness) : Rat :=
  let st0 := initializeFresh cfg rnd.addrPerms
  let result := (List.range num_tests).foldl
    (fun (p : Rat × SDMState) t =>
      let tv := generateSparseVector cfg.vector_dim cfg.sparsity (rnd.testPerms.getD t [])
      let st1 := iterWrite 10 p.2 tv
      let r := SDM.read st1 tv
      (p.1 + (matchCount cfg.vector_dim tv r.2.1 : Rat) / (cfg.vector_dim : Rat), r.1))
    ((0 : Rat), st0)
  result.1 / (num_tests : Rat)

/-- The score computed for one grid point of
`SDMBenchmark::runQuickBenchmark` (sdm_benchmark.cpp:39): the test
configuration takes the dimension, the location count and the radius
`⌊dim * factor⌋` (sparsity keeps the `SDMConfig` default 0.03), and
`testConfiguration` runs 5 trials.  `reinforce` is the innermost grid
variable (sdm_benchmark.cpp:36), which the body never passes on. -/
def quickSweepScore (dim locations : Nat) (factor : Rat) (reinforce : Nat)
    (rnd : TestRandomness) : Rat :=
  let cfg : SDMConfig :=
    { vector_dim := dim, num_locations := locations,
      access_radius := Nat.floor ((dim : Rat) * factor), sparsity := 3 / 100 }
  testConfiguration cfg 5 rnd

/-- The score computed for one grid point of
`SDMBenchmark::runComprehensiveBenchmark` (sdm_benchmark.cpp:172): as
`quickSweepScore` but 3 trials; `reinforce` again never reaches
`testConfiguration`. -/
def comprehensiveSweepScore (dim locations : Nat) (factor : Rat) (reinforce : Nat)
    (rnd : TestRandomness) : Rat :=
  let cfg : SDMConfig :=
    { vector_dim := dim, num_locations := locations,
      access_radius := Nat.floor ((dim : Rat) * factor), sparsity := 3 / 100 }
  testConfiguration cfg 3 rnd

/-! Helper lemmas about the list combinators the embedding uses. -/

theorem getD_map_range {α : Type} (f : Nat → α) (d : α) {n i : Nat} (h : i < n) :
    ((List.range n).map f).getD i d = f i := by
  rw [List.getD_eq_getElem?_getD, List.getElem?_map, List.getElem?_range h]
  rfl

theorem foldl_fixed {α β : Type} (f : β → α → β) (l : List α) (b : β)
    (h : ∀ acc, ∀ x ∈ l, f acc x = acc) : l.foldl f b = b := by
  induction l generalizing b with
  | nil => rfl
  | cons x xs ih =>
    rw [List.foldl_cons, h b x (by simp)]
    exact ih b (fun acc y hy => h acc y (by simp [hy]))

theorem map_const_range {α : Type} (n : Nat) (c : α) :
    (List.range n).map (fun _ => c) = List.replicate n c := by
  induction n with
  | zero => rfl
  | succ m ih => rw [List.range_succ, List.map_append, ih, List.map_singleton,
      List.replicate_succ']

theorem getD_zipWith_gen {α β γ : Type} (g : α → β → γ) (as : List α) (bs : List β)
    (da : α) (db : β) (dc : γ) {j : Nat} (hj : j < as.length) (hb : j < bs.length) :
    (List.zipWith g as bs).getD j dc = g (as.getD j da) (bs.getD j db) := by
  have hz : j < (List.zipWith g as bs).length := by
    rw [List.length_zipWith]; omega
  rw [List.getD_eq_getElem?_getD, List.getElem?_eq_getElem hz, Option.getD_some,
    List.getElem_zipWith, List.getD_eq_getElem?_getD, List.getElem?_eq_getElem hj,
    List.getD_eq_getElem?_getD, List.getElem?_eq_getElem hb]
  rfl

theorem getD_mem_of_lt {α : Type} (l : List α) (d : α) {i : Nat} (h : i < l.length) :
    l.getD i d ∈ l := by
  rw [List.getD_eq_getElem?_getD, List.getElem?_eq_getElem h, Option.getD_some]
  exact List.getElem_mem h

theorem getD_zipWith_acc (g : Rat → Int → Rat) (t : List Rat) (r : List Int)
    {j : Nat} (hj : j < t.length) (hlen : r.length = t.length) :
    (List.zipWith g t r).getD j 0 = g (t.getD j 0) (r.getD j 0) :=
  getD_zipWith_gen g t r 0 0 0 hj (by omega)

theorem getD_replicate_of_lt {α : Type} (n : Nat) (c d : α) {j : Nat} (h : j < n) :
    (List.replicate n c).getD j d = c := by
  rw [List.getD_eq_getElem?_getD, List.getElem?_replicate]
  simp [h]

/-- Characterisation of the single accumulation pass of `read`
(sdm.cpp:140): the first component collects the total weight, the
second the per-position weighted sums. -/
theorem foldl_weight_acc (w : Nat → Rat) (row : Nat → List Int) (D : Nat) :
    ∀ (L : List Nat) (tw : Rat) (t : List Rat), t.length = D →
      (∀ i ∈ L, (row i).length = D) →
      (L.foldl (fun p i => (p.1 + w i,
          List.zipWith (fun a (m : Int) => a + w i * (m : Rat)) p.2 (row i))) (tw, t)).1
        = tw + (L.map w).sum ∧
      (L.foldl (fun p i => (p.1 + w i,
          List.zipWith (fun a (m : Int) => a + w i * (m : Rat)) p.2 (row i))) (tw, t)).2.length
        = D ∧
      ∀ j, j < D →
        (L.foldl (fun p i => (p.1 + w i,
            List.zipWith (fun a (m : Int) => a + w i * (m : Rat)) p.2 (row i))) (tw, t)).2.getD j 0
          = t.getD j 0 + (L.map (fun i => w i * ((row i).getD j 0 : Rat))).sum := by
  intro L
  induction L with
  | nil => intro tw t ht _; simp [ht]
  | cons i L' ih =>
    intro tw t ht hrow
    have hri : (row i).length = D := hrow i (by simp)
    have ht' : (List.zipWith (fun a (m : Int) => a + w i * (m : Rat)) t (row i)).length = D := by
      rw [List.length_zipWith]; omega
    obtain ⟨h1, h2, h3⟩ := ih (tw + w i)
      (List.zipWith (fun a (m : Int) => a + w i * (m : Rat)) t (row i)) ht'
      (fun x hx => hrow x (by simp [hx]))
    refine ⟨?_, ?_, ?_⟩
    · rw [List.foldl_cons, h1, List.map_cons, List.sum_cons]; ring
    · rw [List.foldl_cons]; exact h2
    · intro j hj
      rw [List.foldl_cons, h3 j hj,
        getD_zipWith_acc _ t (row i) (by omega) (by omega),
        List.map_cons, List.sum_cons]
      ring

/-- Characterisation of the maximum-tracking pass of `read`
(sdm.cpp:154): the fold's result bounds every `g x` and is either the
seed or attained by some element. -/
theorem foldl_max_spec (g : Rat → Rat) :
    ∀ (l : List Rat) (a : Rat),
      a ≤ l.foldl (fun mc t => max mc (g t)) a ∧
      (∀ x ∈ l, g x ≤ l.foldl (fun mc t => max mc (g t)) a) ∧
      (l.foldl (fun mc t => max mc (g t)) a = a ∨
        ∃ x ∈ l, l.foldl (fun mc t => max mc (g t)) a = g x) := by
  intro l
  induction l with
  | nil => intro a; simp
  | cons x xs ih =>
    intro a
    obtain ⟨h1, h2, h3⟩ := ih (max a (g x))
    rw [List.foldl_cons]
    refine ⟨le_trans (le_max_left _ _) h1, ?_, ?_⟩
    · intro y hy
      rcases List.mem_cons.mp hy with rfl | hy'
      · exact le_trans (le_max_right _ _) h1
      · exact h2 y hy'
    · rcases h3 with h | ⟨y, hy, hEq⟩
      · rcases max_choice a (g x) with hm | hm
        · exact Or.inl (h.trans hm)
        · exact Or.inr ⟨x, by simp, h.trans hm⟩
      · exact Or.inr ⟨y, by simp [hy], hEq⟩

theorem getD_map_of_lt {α β : Type} (f : α → β) (l : List α) (d : β) (da : α) {j : Nat}
    (h : j < l.length) :
    (l.map f).getD j d = f (l.getD j da) := by
  rw [List.getD_eq_getElem?_getD, List.getElem?_map, List.getElem?_eq_getElem h,
    List.getD_eq_getElem?_getD, List.getElem?_eq_getElem h]
  rfl

/-- The distance weight `w_i = 1/(1+d_i)` the read algorithm gives
location `i` for query `q` (sdm.cpp:141). -/
def locWeight (s : SDMState) (q : List Bool) (i : Nat) : Rat :=
  1 / (1 + (hammingDistance q (s.addresses.getD i []) : Rat))

/-- The total weight `W = Σ_{i ∈ A(q)} w_i` of the specification's read
algorithm. -/
def totalWeight (s : SDMState) (q : List Bool) : Rat :=
  ((activatedIndices s q).map (fun i => locWeight s q i)).sum

/-- The distance-weighted mean `μ[j]` of the specification's read
algorithm: `(Σ_{i ∈ A(q)} w_i · memory[i][j]) / W`. -/
def muSpec (s : SDMState) (q : List Bool) (j : Nat) : Rat :=
  ((activatedIndices s q).map
      (fun i => locWeight s q i * (((s.memory.getD i []).getD j 0 : Int) : Rat))).sum /
    totalWeight s q

/-! Concrete stores used to instantiate the theorems. -/

/-- A tiny concrete configuration (`D = 2`, `N = 2`, `R = 1`). -/
def demoConfig : SDMConfig :=
  { vector_dim := 2, num_locations := 2, access_radius := 1, sparsity := 1 / 2 }

/-- A tiny concrete well-formed store over `demoConfig`. -/
def demoState : SDMState :=
  { config := demoConfig,
    addresses := [[true, false], [false, false]],
    memory := [[5, -3], [0, 2]],
    access_counts := [0, 7],
    stats := initStats }

/-! Claim theorems. -/

/-- C5: Shape-mismatch rejection and atomicity: an input vector whose
length differs from `vector_dim` makes `write` fail returning 0
activated locations and `read` fail returning the all-zero vector of
length `D` with confidence 0, and both leave the whole state — counter
matrix, access counts and every statistics field — unchanged (no
truncation or padding of the input happens). -/
theorem shape_mismatch_rejection (s : SDMState) (v : List Bool) (k : Nat)
    (h : v.length ≠ s.config.vector_dim) :
    write s v k = (s, 0) ∧
    SDM.read s v = (s, (List.replicate s.config.vector_dim false, 0)) := by
  constructor
  · rw [write, if_neg h]
  · rw [SDM.read, if_neg h]

/-- Witness for C5 at a concrete store and a length-1 input against
dimension 2. -/
theorem shape_mismatch_rejection_witness :
    write demoState [true] 3 = (demoState, 0) ∧
    SDM.read demoState [true] = (demoState, (List.replicate demoState.config.vector_dim false, 0)) :=
  shape_mismatch_rejection demoState [true] 3 (by decide)

/-- C1: Write postcondition: on a well-formed store, for an input of
length exactly `vector_dim` and a strength in `uint8_t` range with
`strength ≥ 1`, `write` updates exactly the locations within Hamming
distance `access_radius` of the input: each such location's access
count is incremented (as the `uint16_t` it is), and counter `(i, j)`
moves by `+strength` where the input bit is 1 and `-strength` where it
is 0, clamped into `[INT16_MIN, INT16_MAX]`; the number of activated
locations is returned and recorded as `last_activated_locations`,
`total_writes` is incremented (as a `uint32_t`), and non-activated
locations keep their counters and access counts unchanged. -/
theorem write_postcondition (s : SDMState) (v : List Bool) (k : Nat)
    (hwf : WF s) (hv : v.length = s.config.vector_dim) (hk : 1 ≤ k) (hk255 : k ≤ 255) :
    (write s v k).2 = (activatedIndices s v).length ∧
    (write s v k).1.stats.last_activated_locations = (activatedIndices s v).length ∧
    (write s v k).1.stats.total_writes = (s.stats.total_writes + 1) % 4294967296 ∧
    (write s v k).1.addresses = s.addresses ∧
    (write s v k).1.config = s.config ∧
    ∀ i, i < s.config.num_locations →
      (activates s.config v (s.addresses.getD i []) = true →
        (write s v k).1.access_counts.getD i 0 = (s.access_counts.getD i 0 + 1) % 65536 ∧
        ∀ j, j < s.config.vector_dim →
          ((write s v k).1.memory.getD i []).getD j 0 =
            (if v.getD j false then clamp16 ((s.memory.getD i []).getD j 0 + (k : Int))
             else clamp16 ((s.memory.getD i []).getD j 0 - (k : Int)))) ∧
      (activates s.config v (s.addresses.getD i []) = false →
        (write s v k).1.access_counts.getD i 0 = s.access_counts.getD i 0 ∧
        (write s v k).1.memory.getD i [] = s.memory.getD i []) := by
  obtain ⟨hlena, hlenm, hlenc, hdim, hrow, hbnd⟩ := hwf
  rw [write, if_pos hv]
  refine ⟨rfl, rfl, rfl, rfl, rfl, ?_⟩
  intro i hi
  have hmi : s.memory.getD i [] ∈ s.memory := getD_mem_of_lt _ _ (by omega)
  have hrowi : (s.memory.getD i []).length = s.config.vector_dim := hrow _ hmi
  constructor
  · intro hact
    constructor
    · rw [getD_map_range _ _ hi, hact, if_pos rfl]
    · intro j hj
      rw [getD_map_range _ _ hi, hact, if_pos rfl, updateRow,
        getD_zipWith_gen _ v (s.memory.getD i []) false 0 0 (by omega) (by omega)]
      have hmem : (s.memory.getD i []).getD j 0 ∈ s.memory.getD i [] :=
        getD_mem_of_lt _ _ (by omega)
      obtain ⟨hlo, hhi⟩ := hbnd _ hmi _ hmem
      by_cases hb : v.getD j false
      · rw [if_pos hb, if_pos hb, clamp16, INT16_MIN, INT16_MAX] at *
        rw [max_def, min_def]
        split_ifs <;> omega
      · rw [if_neg hb, if_neg hb, clamp16, INT16_MIN, INT16_MAX] at *
        rw [max_def, min_def]
        split_ifs <;> omega
  · intro hact
    constructor
    · rw [getD_map_range _ _ hi, hact]
      simp
    · rw [getD_map_range _ _ hi, hact]
      simp

/-- Witness for C1: on the demo store, the input `[true, false]`
activates both locations and the first counter row moves to the clamped
updated values. -/
theorem write_postcondition_witness :
    (write demoState [true, false] 1).2 = 2 ∧
    (write demoState [true, false] 1).1.stats.total_writes = 1 := by
  have h := write_postcondition demoState [true, false] 1
    (by decide) (by decide) (by decide) (by decide)
  exact ⟨by rw [h.1]; decide, by rw [h.2.2.1]; decide⟩

/-- C2: Read postcondition: on a well-formed store, a query of length
exactly `vector_dim` either activates no location — then `read` returns
the all-zero vector of length `D` with confidence 0 — or returns the
vector whose bit `j` is 1 exactly when the distance-weighted mean
`μ[j] = (Σ_i w_i · memory[i][j]) / W` (weights `w_i = 1/(1+d_i)`,
`W = Σ_i w_i`) is strictly positive (0 when `μ[j] = 0`), with
confidence the maximum over `j` of `|μ[j]|`. -/
theorem read_postcondition (s : SDMState) (q : List Bool)
    (hwf : WF s) (hq : q.length = s.config.vector_dim) :
    (activatedIndices s q = [] →
      SDM.read s q = (s, (List.replicate s.config.vector_dim false, 0))) ∧
    (activatedIndices s q ≠ [] →
      (SDM.read s q).2.1.length = s.config.vector_dim ∧
      (∀ j, j < s.config.vector_dim →
        (SDM.read s q).2.1.getD j false = decide (muSpec s q j > 0)) ∧
      (∀ j, j < s.config.vector_dim → |muSpec s q j| ≤ (SDM.read s q).2.2) ∧
      ((SDM.read s q).2.2 = 0 ∨
        ∃ j, j < s.config.vector_dim ∧ (SDM.read s q).2.2 = |muSpec s q j|)) := by
  obtain ⟨hlena, hlenm, hlenc, hdim, hrow, hbnd⟩ := hwf
  constructor
  · intro hA
    rw [SDM.read, if_pos hq]
    simp only [hA, List.isEmpty_nil, if_true]
  · intro hA
    have hrows : ∀ i ∈ activatedIndices s q,
        ((fun i => s.memory.getD i []) i).length = s.config.vector_dim := by
      intro i hi
      have hiN : i < s.config.num_locations :=
        List.mem_range.mp (List.mem_filter.mp hi).1
      exact hrow _ (getD_mem_of_lt _ _ (by omega))
    obtain ⟨hw1, hw2, hw3⟩ := foldl_weight_acc
      (fun i => 1 / (1 + (hammingDistance q (s.addresses.getD i []) : Rat)))
      (fun i => s.memory.getD i []) s.config.vector_dim (activatedIndices s q)
      0 (List.replicate s.config.vector_dim 0) (by simp) hrows
    rw [SDM.read, if_pos hq]
    have hne : (activatedIndices s q).isEmpty = false := by
      simp [hA]
    simp only [hne, Bool.false_eq_true, if_false]
    set F := List.foldl
        (fun (p : Rat × List Rat) i =>
          (p.1 + 1 / (1 + (hammingDistance q (s.addresses.getD i []) : Rat)),
            List.zipWith
              (fun a (m : Int) =>
                a + 1 / (1 + (hammingDistance q (s.addresses.getD i []) : Rat)) * (m : Rat))
              p.2 (s.memory.getD i [])))
        ((0 : Rat), List.replicate s.config.vector_dim (0 : Rat))
        (activatedIndices s q) with hF
    have hmu : ∀ j, j < s.config.vector_dim → F.2.getD j 0 / F.1 = muSpec s q j := by
      intro j hj
      rw [hw3 j hj, hw1, getD_replicate_of_lt _ _ _ hj, zero_add, zero_add]
      simp only [muSpec, totalWeight, locWeight]
    obtain ⟨hm1, hm2, hm3⟩ := foldl_max_spec (fun t => |t / F.1|) F.2 0
    refine ⟨?_, ?_, ?_, ?_⟩
    · rw [List.length_map, hw2]
    · intro j hj
      rw [getD_map_of_lt _ _ _ 0 (by rw [hw2]; exact hj), hmu j hj]
    · intro j hj
      rw [← hmu j hj]
      exact hm2 _ (getD_mem_of_lt _ _ (by rw [hw2]; exact hj))
    · rcases hm3 with h0 | ⟨x, hx, hEq⟩
      · exact Or.inl h0
      · obtain ⟨j, hjlen, hjx⟩ := List.getElem_of_mem hx
        have hjD : j < s.config.vector_dim := by rw [← hw2]; exact hjlen
        have hxg : F.2.getD j 0 = x := by
          rw [List.getD_eq_getElem?_getD, List.getElem?_eq_getElem hjlen, Option.getD_some, hjx]
        exact Or.inr ⟨j, hjD, by rw [hEq, ← hxg, hmu j hjD]⟩

/-- Witness for C2: on the demo store the query `[true, false]`
activates both locations and the read output matches the
distance-weighted thresholding. -/
theorem read_postcondition_witness :
    activatedIndices demoState [true, false] ≠ [] ∧
    (SDM.read demoState [true, false]).2.1.length = 2 := by
  refine ⟨by decide, ?_⟩
  exact ((read_postcondition demoState [true, false] (by decide) (by decide)).2 (by decide)).1

/-- A store whose single location (address `[false]`, radius 0) is not
activated by the query `[true]`: the read's working set is empty. -/
def emptyActState : SDMState :=
  { config := { vector_dim := 1, num_locations := 1, access_radius := 0, sparsity := 1 },
    addresses := [[false]],
    memory := [[4]],
    access_counts := [2],
    stats := initStats }

/-- C4 counterexample: the accepted query `[true]` on `emptyActState`
activates no location, and `read` returns without incrementing
`total_reads` (sdm.cpp:133 returns before the statistics update at
sdm.cpp:160), contradicting the claim that every accepted read
increments it. -/
theorem read_stats_counterexample :
    ([true] : List Bool).length = emptyActState.config.vector_dim ∧
    (SDM.read emptyActState [true]).1.stats.total_reads ≠
      emptyActState.stats.total_reads + 1 ∧
    (SDM.read emptyActState [true]).1.stats.total_reads =
      emptyActState.stats.total_reads := by
  refine ⟨by decide, by decide, by decide⟩

/-- C4 (amended): an accepted read that activates at least one location
increments `total_reads` (as the `uint32_t` it is) and records the
returned confidence in `last_confidence`; an accepted read that
activates no location returns confidence 0 and leaves the state —
statistics included — entirely unchanged. -/
theorem read_stats_update (s : SDMState) (q : List Bool)
    (hq : q.length = s.config.vector_dim) :
    (activatedIndices s q ≠ [] →
      (SDM.read s q).1.stats.total_reads = (s.stats.total_reads + 1) % 4294967296 ∧
      (SDM.read s q).1.stats.last_confidence = (SDM.read s q).2.2) ∧
    (activatedIndices s q = [] →
      (SDM.read s q).1 = s ∧ (SDM.read s q).2.2 = 0) := by
  constructor
  · intro hA
    have hne : (activatedIndices s q).isEmpty = false := by simp [hA]
    rw [SDM.read, if_pos hq]
    simp only [hne, Bool.false_eq_true, if_false]
    constructor <;> trivial
  · intro hA
    rw [SDM.read, if_pos hq]
    simp only [hA, List.isEmpty_nil, if_true]
    constructor <;> trivial

/-- Witness for the amended C4 at the demo store: the activating query
bumps `total_reads` to 1. -/
theorem read_stats_update_witness :
    (SDM.read demoState [true, false]).1.stats.total_reads = 1 := by
  have h := (read_stats_update demoState [true, false] (by decide)).1 (by decide)
  rw [h.1]
  decide

/-- A store (`N = 1`, `D = 2`) with zeroed counters, about to load a
truncated state file. -/
def truncState : SDMState :=
  { config := { vector_dim := 2, num_locations := 1, access_radius := 0, sparsity := 1 },
    addresses := [[false, false]],
    memory := [[0, 0]],
    access_counts := [0],
    stats := initStats }

/-- A state file whose header `(N = 1, D = 2)` matches `truncState` but
which ends 2 bytes short of the full payload of
`4 + 2·N + 2·N·D = 10` bytes: one access counter (5) and one counter
value (9) are present, the last counter is missing. -/
def truncFile : List Nat := [1, 0, 2, 0, 5, 0, 9, 0]

/-- C3: the code evaluated at the failing input: `loadMemoryFromSD`
reads a file that is 2 bytes short of the complete payload, yet returns
success and has already overwritten the access counter (0 becomes 5)
and the first counter cell (0 becomes 9) — the load is not atomic under
truncation, because the source never checks `File::read`'s return
value (sdm.cpp:274, sdm.cpp:280). -/
theorem load_truncated_partial_mutation :
    truncFile.length <
      4 + 2 * truncState.config.num_locations
        + 2 * truncState.config.num_locations * truncState.config.vector_dim ∧
    (loadMemoryFromSD truncState (some truncFile) 0 0).2 = true ∧
    (loadMemoryFromSD truncState (some truncFile) 0 0).1.access_counts = [5] ∧
    (loadMemoryFromSD truncState (some truncFile) 0 0).1.memory = [[9, 0]] ∧
    (loadMemoryFromSD truncState (some truncFile) 0 0).1.access_counts ≠
      truncState.access_counts := by
  refine ⟨by decide, by decide, by decide, by decide, by decide⟩

/-- C8: Optimal-config fallback: when the persisted optimal-config file
is absent, unopenable or unparseable, `findOptimalConfig` returns
exactly the conservative default `(D=16, N=50, R=3, s=0.03)` and writes
that same configuration back; when the file parses, it returns the
persisted values and writes nothing. -/
theorem optimal_config_fallback (f : OptConfigFile) :
    (f = OptConfigFile.absent ∨ f = OptConfigFile.openFailed ∨ f = OptConfigFile.unparseable →
      findOptimalConfig f = (esp32SafeDefault, some esp32SafeDefault) ∧
      esp32SafeDefault =
        { vector_dim := 16, num_locations := 50, access_radius := 3, sparsity := 3 / 100 }) ∧
    (∀ vd nl ar sp, f = OptConfigFile.parsed vd nl ar sp →
      findOptimalConfig f =
        ({ vector_dim := vd, num_locations := nl, access_radius := ar, sparsity := sp },
          none)) := by
  constructor
  · rintro (rfl | rfl | rfl) <;> exact ⟨rfl, rfl⟩
  · rintro vd nl ar sp rfl
    rfl

/-- Witness for C8: the absent file yields the saved-back default; a
parsed file is passed through. -/
theorem optimal_config_fallback_witness :
    findOptimalConfig OptConfigFile.absent = (esp32SafeDefault, some esp32SafeDefault) ∧
    findOptimalConfig (OptConfigFile.parsed 64 1000 20 1) =
      ({ vector_dim := 64, num_locations := 1000, access_radius := 20, sparsity := 1 },
        none) :=
  ⟨((optimal_config_fallback OptConfigFile.absent).1 (Or.inl rfl)).1,
    (optimal_config_fallback (OptConfigFile.parsed 64 1000 20 1)).2 64 1000 20 1 rfl⟩

/-- C10: the benchmark score is independent of the reinforcement grid
value: for two grid points differing only in `reinforce`, under the
same random draws, the quick sweep's score and the comprehensive
sweep's score are identical — `reinforce` is iterated by the loops but
never passed to `testConfiguration`. -/
theorem benchmark_reinforcement_noninterference
    (dim locations : Nat) (factor : Rat) (r1 r2 : Nat) (rnd : TestRandomness) :
    quickSweepScore dim locations factor r1 rnd = quickSweepScore dim locations factor r2 rnd ∧
    comprehensiveSweepScore dim locations factor r1 rnd =
      comprehensiveSweepScore dim locations factor r2 rnd :=
  ⟨rfl, rfl⟩

/-- C9: sequence codec undefined below `D = 32`: `bits_per_element`
is the integer quotient `vector_dim / 32`, so for `vector_dim < 32` it
is 0, `encodeSequence` sets no bits for any input, and each of the 32
elements `decodeSequence` emits divides the segment's active-bit count
(0) by the zero `bits_per_element`; only `vector_dim ≥ 32` makes the
divisor positive. -/
theorem sequence_codec_small_dim (D : Nat) (hD : D < 32) :
    bitsPerElement D = 0 ∧
    (∀ seq : List Rat, encodeSequence D seq = List.replicate D false) ∧
    (∀ v : List Bool,
      decodeSequence D v = List.replicate sequence_length (((0 : Rat) / (0 : Rat)) * 2 - 1)) ∧
    (∀ E, 32 ≤ E → 1 ≤ bitsPerElement E) := by
  have hbpe : bitsPerElement D = 0 := Nat.div_eq_of_lt hD
  refine ⟨hbpe, ?_, ?_, ?_⟩
  · intro seq
    rw [encodeSequence]
    split_ifs with h
    · rfl
    · refine foldl_fixed _ _ _ ?_
      intro acc p _
      simp [hbpe]
  · intro v
    rw [decodeSequence]
    simp only [hbpe]
    rw [show (fun i => ((((List.range 0).filter
          (fun j => v.getD (i * 0 + j) false)).length : Rat) / ((0 : Nat) : Rat)) * 2 - 1)
        = (fun _ : Nat => ((0 : Rat) / (0 : Rat)) * 2 - 1) from ?_]
    · exact map_const_range sequence_length _
    · funext i
      simp
  · intro E hE
    rw [bitsPerElement, sequence_length]
    exact (Nat.one_le_div_iff (by norm_num)).mpr hE

/-- Witness for C9 at the fallback configuration's dimension
`D = 16`: `bits_per_element` collapses to 0 and a concrete sequence
encodes to the zero vector. -/
theorem sequence_codec_small_dim_witness :
    esp32SafeDefault.vector_dim < 32 ∧
    bitsPerElement esp32SafeDefault.vector_dim = 0 ∧
    encodeSequence esp32SafeDefault.vector_dim [1, -1] = List.replicate 16 false := by
  have h := sequence_codec_small_dim esp32SafeDefault.vector_dim (by decide)
  exact ⟨by decide, h.1, h.2.1 [1, -1]⟩

theorem count_true_map_decide (P : Nat → Prop) [DecidablePred P] (l : List Nat) :
    (l.map (fun j => decide (P j))).count true
      = (l.filter (fun j => decide (P j))).length := by
  induction l with
  | nil => rfl
  | cons x xs ih =>
    by_cases h : P x <;>
      simp [List.count_cons, List.filter_cons, h, ih]

theorem filter_mem_range_length (D : Nat) (T : List Nat) (hnodup : T.Nodup)
    (hsub : ∀ x ∈ T, x < D) :
    ((List.range D).filter (fun j => decide (j ∈ T))).length = T.length := by
  have hfn : ((List.range D).filter (fun j => decide (j ∈ T))).Nodup :=
    (List.nodup_range D).filter _
  have hto : ((List.range D).filter (fun j => decide (j ∈ T))).toFinset = T.toFinset := by
    ext x
    simp only [List.mem_toFinset, List.mem_filter, List.mem_range, decide_eq_true_eq]
    exact ⟨fun h => h.2, fun h => ⟨hsub x h, h⟩⟩
  calc ((List.range D).filter (fun j => decide (j ∈ T))).length
      = ((List.range D).filter (fun j => decide (j ∈ T))).toFinset.card :=
        (List.toFinset_card_of_nodup hfn).symm
    _ = T.toFinset.card := by rw [hto]
    _ = T.length := List.toFinset_card_of_nodup hnodup

/-- The one-bit count of a generated address: when `perm` really is a
shuffle of `0, …, D-1` and `⌊D·s⌋ ≤ D`, exactly `⌊D·s⌋` distinct
positions are set. -/
theorem generateSparseVector_count (D : Nat) (s : Rat) (perm : List Nat)
    (hperm : perm.Perm (List.range D)) (hn : Nat.floor ((D : Rat) * s) ≤ D) :
    (generateSparseVector D s perm).count true = Nat.floor ((D : Rat) * s) := by
  have hplen : perm.length = D := by rw [hperm.length_eq, List.length_range]
  have hpnodup : perm.Nodup := hperm.nodup_iff.mpr (List.nodup_range D)
  have hTnodup : (perm.take (Nat.floor ((D : Rat) * s))).Nodup :=
    hpnodup.sublist (List.take_sublist _ perm)
  have hTlt : ∀ x ∈ perm.take (Nat.floor ((D : Rat) * s)), x < D := by
    intro x hx
    exact List.mem_range.mp (hperm.mem_iff.mp (List.mem_of_mem_take hx))
  have hTlen : (perm.take (Nat.floor ((D : Rat) * s))).length = Nat.floor ((D : Rat) * s) := by
    rw [List.length_take]; omega
  rw [generateSparseVector]
  rw [count_true_map_decide (fun j => j ∈ perm.take (Nat.floor ((D : Rat) * s))) (List.range D)]
  rw [filter_mem_range_length D _ hTnodup hTlt, hTlen]

/-- C7: Address sparsity invariant: a freshly initialised store with
`0 < sparsity ≤ 1` (each location's shuffle being a permutation of
`0, …, vector_dim-1`) has `num_locations` address vectors, each of
length `vector_dim` and carrying exactly `⌊vector_dim · sparsity⌋`
one-bits at distinct positions; `write` and `read` never mutate the
address table. -/
theorem address_sparsity_invariant (cfg : SDMConfig) (perms : List (List Nat))
    (hs0 : 0 < cfg.sparsity) (hs1 : cfg.sparsity ≤ 1)
    (hlen : perms.length = cfg.num_locations)
    (hperm : ∀ p ∈ perms, p.Perm (List.range cfg.vector_dim)) :
    (initializeFresh cfg perms).addresses.length = cfg.num_locations ∧
    (∀ a ∈ (initializeFresh cfg perms).addresses,
      a.length = cfg.vector_dim ∧
      a.count true = Nat.floor ((cfg.vector_dim : Rat) * cfg.sparsity)) ∧
    (∀ st v k, (write st v k).1.addresses = st.addresses) ∧
    (∀ st q, (SDM.read st q).1.addresses = st.addresses) := by
  have hfl : Nat.floor ((cfg.vector_dim : Rat) * cfg.sparsity) ≤ cfg.vector_dim := by
    have h1 : (cfg.vector_dim : Rat) * cfg.sparsity ≤ (cfg.vector_dim : Rat) :=
      mul_le_of_le_one_right (by positivity) hs1
    calc Nat.floor ((cfg.vector_dim : Rat) * cfg.sparsity)
        ≤ Nat.floor ((cfg.vector_dim : Rat)) := Nat.floor_le_floor h1
      _ = cfg.vector_dim := Nat.floor_natCast _
  refine ⟨?_, ?_, ?_, ?_⟩
  · rw [initializeFresh]
    simp
  · intro a ha
    rw [initializeFresh] at ha
    simp only [List.mem_map, List.mem_range] at ha
    obtain ⟨i, hi, rfl⟩ := ha
    have hpi : perms.getD i [] ∈ perms := getD_mem_of_lt _ _ (by omega)
    constructor
    · rw [generateSparseVector]
      simp
    · exact generateSparseVector_count _ _ _ (hperm _ hpi) hfl
  · intro st v k
    rw [write]
    split_ifs <;> rfl
  · intro st q
    by_cases hq : q.length = st.config.vector_dim
    · rw [SDM.read, if_pos hq]
      by_cases hA : (activatedIndices st q).isEmpty
      · simp only [hA, if_true]
      · simp only [Bool.not_eq_true] at hA
        simp only [hA, Bool.false_eq_true, if_false]
    · rw [SDM.read, if_neg hq]

/-- A concrete configuration (`D = 4`, `N = 2`, `s = 1/2`) and two
shuffles instantiating C7: both addresses carry `⌊4 · 1/2⌋ = 2`
one-bits. -/
def c7cfg : SDMConfig :=
  { vector_dim := 4, num_locations := 2, access_radius := 1, sparsity := 1 / 2 }

def c7perms : List (List Nat) := [[0, 1, 2, 3], [2, 3, 0, 1]]

/-- Witness for C7 at `c7cfg`. -/
theorem address_sparsity_invariant_witness :
    (initializeFresh c7cfg c7perms).addresses.length = 2 ∧
    ∀ a ∈ (initializeFresh c7cfg c7perms).addresses,
      a.count true = Nat.floor ((c7cfg.vector_dim : Rat) * c7cfg.sparsity) := by
  have h := address_sparsity_invariant c7cfg c7perms (by norm_num [c7cfg])
    (by norm_num [c7cfg]) (by decide) (by decide)
  exact ⟨h.1, fun a ha => (h.2.1 a ha).2⟩

theorem hsb_aux_allfalse (p : Nat) :
    ∀ (m i acc : Nat), p < i →
      highestSetBitAux i acc ((List.range' i m).map (fun j => decide (j ≤ p))) = acc := by
  intro m
  induction m with
  | zero => intro i acc _; rfl
  | succ m ih =>
    intro i acc hpi
    rw [List.range'_succ, List.map_cons, highestSetBitAux]
    rw [show decide (i ≤ p) = false by simp; omega]
    simp only [Bool.false_eq_true, if_false]
    exact ih (i + 1) acc (by omega)

theorem hsb_aux_thermo (p : Nat) :
    ∀ (m i acc : Nat), i ≤ p → p < i + m →
      highestSetBitAux i acc ((List.range' i m).map (fun j => decide (j ≤ p))) = p := by
  intro m
  induction m with
  | zero => intro i acc h1 h2; omega
  | succ m ih =>
    intro i acc h1 h2
    rw [List.range'_succ, List.map_cons, highestSetBitAux]
    rw [show decide (i ≤ p) = true by simp [h1]]
    simp only [if_true]
    by_cases hip : p < i + 1
    · have hpi : p = i := by omega
      subst hpi
      exact hsb_aux_allfalse p m (p + 1) p (by omega)
    · exact ih (i + 1) i (by omega) (by omega)

/-- The highest set bit of a thermometer pattern with top position
`p < D` is `p`. -/
theorem highestSetBit_thermo (D p : Nat) (hp : p < D) :
    highestSetBit ((List.range D).map (fun i => decide (i ≤ p))) = p := by
  rw [highestSetBit, List.range_eq_range']
  exact hsb_aux_thermo p D 0 0 (Nat.zero_le p) (by omega)

theorem constrain_eq_self {x lo hi : Rat} (h1 : lo ≤ x) (h2 : x ≤ hi) :
    constrain x lo hi = x := by
  rw [constrain, if_neg (by linarith), if_neg (by linarith)]

/-- C6: Thermometer scalar round-trip: for `min_val < max_val`,
`x ∈ [min_val, max_val]` and `D ≥ 2`, the encoded vector has length `D`
and decoding it lands within `(max_val − min_val)/(D−1)` of `x`;
`encodeFloat` sets bits `0` through `⌊normalized·(D−1)⌋` and
`decodeFloat` maps the highest set bit back through the scale. -/
theorem thermometer_roundtrip (D : Nat) (x lo hi : Rat)
    (hD : 2 ≤ D) (hlohi : lo < hi) (hx1 : lo ≤ x) (hx2 : x ≤ hi) :
    (encodeFloat D x lo hi).length = D ∧
    |decodeFloat D (encodeFloat D x lo hi) lo hi - x| ≤ (hi - lo) / ((D - 1 : Nat) : Rat) := by
  have hd : (0 : Rat) < hi - lo := by linarith
  set n : Rat := (x - lo) / (hi - lo) with hn
  have hn0 : 0 ≤ n := div_nonneg (by linarith) (by linarith)
  have hn1 : n ≤ 1 := by
    rw [hn, div_le_one hd]; linarith
  set E : Rat := ((D - 1 : Nat) : Rat) with hE
  have hE1 : (1 : Rat) ≤ E := by
    rw [hE]
    exact_mod_cast (by omega : (1 : Nat) ≤ D - 1)
  have hEpos : (0 : Rat) < E := by linarith
  set p : Nat := Nat.floor (n * E) with hp
  have hple : (p : Rat) ≤ n * E := Nat.floor_le (by positivity)
  have hplt : n * E < (p : Rat) + 1 := Nat.lt_floor_add_one _
  have hpD : p < D := by
    have h1 : n * E ≤ E := by nlinarith
    have h2 : p ≤ D - 1 := by
      calc p = Nat.floor (n * E) := hp
        _ ≤ Nat.floor E := Nat.floor_le_floor h1
        _ = D - 1 := by rw [hE, Nat.floor_natCast]
    omega
  have henc : encodeFloat D x lo hi = (List.range D).map (fun i => decide (i ≤ p)) := by
    rw [encodeFloat]
    rw [← hn, constrain_eq_self hn0 hn1, ← hE, ← hp]
  have hdec : decodeFloat D (encodeFloat D x lo hi) lo hi
      = lo + ((p : Rat) / E) * (hi - lo) := by
    rw [henc, decodeFloat, highestSetBit_thermo D p hpD, ← hE]
  constructor
  · rw [henc]; simp
  · rw [hdec]
    have hxn : n * (hi - lo) = x - lo := by
      rw [hn, div_mul_cancel₀ _ (ne_of_gt hd)]
    have key : lo + ((p : Rat) / E) * (hi - lo) - x = -((n - (p : Rat) / E) * (hi - lo)) := by
      have hx : x = lo + n * (hi - lo) := by linarith
      rw [hx]; ring
    rw [key, abs_neg]
    have hnp : 0 ≤ n - (p : Rat) / E := by
      rw [sub_nonneg, div_le_iff₀ hEpos]
      exact hple
    rw [abs_of_nonneg (mul_nonneg hnp (by linarith))]
    have hsum : ((p : Rat) + 1) / E - (p : Rat) / E = 1 / E := by
      rw [div_sub_div_same]; norm_num
    have h2 : n ≤ ((p : Rat) + 1) / E := by
      rw [le_div_iff₀ hEpos]; linarith
    calc (n - (p : Rat) / E) * (hi - lo)
        ≤ (1 / E) * (hi - lo) := by
          apply mul_le_mul_of_nonneg_right _ (le_of_lt hd)
          linarith
      _ = (hi - lo) / E := by ring

/-- Witness for C6 at `D = 64`, range `[-100, 100]`, `x = 50`
(the spec's concrete thermometer scenario). -/
theorem thermometer_roundtrip_witness :
    (encodeFloat 64 50 (-100) 100).length = 64 ∧
    |decodeFloat 64 (encodeFloat 64 50 (-100) 100) (-100) 100 - 50| ≤
      (100 - (-100)) / ((64 - 1 : Nat) : Rat) :=
  thermometer_roundtrip 64 50 (-100) 100 (by norm_num) (by norm_num) (by norm_num)
    (by norm_num)

end SDM
